import Mathlib

/-!
Verification of the TTS reader's core text pipeline and audio encoder.

Strings are modelled as `List Char`; every character occurring in the
program's regular expressions lies in the Basic Multilingual Plane, so one
`Char` corresponds to one UTF-16 code unit of the JavaScript string.
Floating-point samples are modelled exactly as rationals (`ℚ`); all sample
values appearing in concrete statements are dyadic rationals on which the
JavaScript double arithmetic performed by the encoder is exact.
-/

namespace TTS

/-- JavaScript `\s` (and `String.prototype.trim`) white-space set, on a
UTF-16 code point. -/
def wsCode (n : Nat) : Bool :=
  decide (n = 9 ∨ n = 10 ∨ n = 11 ∨ n = 12 ∨ n = 13 ∨ n = 32 ∨ n = 160 ∨
    n = 5760 ∨ (8192 ≤ n ∧ n ≤ 8202) ∨ n = 8232 ∨ n = 8233 ∨ n = 8239 ∨
    n = 8287 ∨ n = 12288 ∨ n = 65279)

def isWsJS (c : Char) : Bool := wsCode c.toNat

/-- The control ranges of `/[\x00-\x1F\x7F-\x9F]/` (U+0000–U+001F and
U+007F–U+009F). -/
def ctrlCode (n : Nat) : Bool := decide (n ≤ 31 ∨ (127 ≤ n ∧ n ≤ 159))

def isCtrlJS (c : Char) : Bool := ctrlCode c.toNat

/-- The decorative glyph class `/[※▶▣◈◆▷■□○●◎◇▽▼▲△◀◁]/` by code point. -/
def decorCode (n : Nat) : Bool :=
  decide (n = 8251 ∨ n = 9654 ∨ n = 9635 ∨ n = 9672 ∨ n = 9670 ∨ n = 9655 ∨
    n = 9632 ∨ n = 9633 ∨ n = 9675 ∨ n = 9679 ∨ n = 9678 ∨ n = 9671 ∨
    n = 9661 ∨ n = 9660 ∨ n = 9650 ∨ n = 9651 ∨ n = 9664 ∨ n = 9665)

/-- The double-quote class (ASCII `"`, fullwidth `＂` U+FF02, low `„` U+201E). -/
def dqCode (n : Nat) : Bool := decide (n = 34 ∨ n = 65282 ∨ n = 8222)

/-- The single-quote class (ASCII apostrophe U+0027, `‘` U+2018, `’` U+2019). -/
def sqCode (n : Nat) : Bool := decide (n = 39 ∨ n = 8216 ∨ n = 8217)

/-- The chunker's delimiter class `/[.\n?!]/`. -/
def delimCode (n : Nat) : Bool := decide (n = 46 ∨ n = 10 ∨ n = 63 ∨ n = 33)

def isDelim (c : Char) : Bool := delimCode c.toNat

/-- `.replace(/[\x00-\x1F\x7F-\x9F]/g, "")`. -/
def removeCtrl (l : List Char) : List Char := l.filter (fun c => !isCtrlJS c)

/-- `.replace(/[※▶▣◈◆▷■□○●◎◇▽▼▲△◀◁]/g, " ")`. -/
def decorToSpace (l : List Char) : List Char :=
  l.map (fun c => if decorCode c.toNat then ' ' else c)

/-- Global replace of `/p([^\s]|$)/g` by `"p $1"` (the `|$` alternative only
when `endRule` is set, mirroring the comma rule's lack of it).  A match
consumes the punctuation character and the following non-white-space
character, and scanning resumes after the match, as in JavaScript's global
`replace`. -/
def spaceAfter (p : Char) (endRule : Bool) : List Char → List Char
  | [] => []
  | [c] => if c == p && endRule then [c, ' '] else [c]
  | c :: d :: rest =>
    if c == p && !isWsJS d then c :: ' ' :: d :: spaceAfter p endRule rest
    else c :: spaceAfter p endRule (d :: rest)

/-- Emit a completed run of `run` copies of `p`, collapsing it to `keep`
copies when it has length at least `minRun`. -/
def runEmit (p : Char) (minRun keep run : Nat) : List Char :=
  List.replicate (if minRun ≤ run then keep else run) p

/-- Scanner for `/p{minRun,}/g → p^keep`; `run` counts the `p`s read since
the current run began. -/
def collapseGo (p : Char) (minRun keep : Nat) (run : Nat) : List Char → List Char
  | [] => runEmit p minRun keep run
  | c :: rest =>
    if c == p then collapseGo p minRun keep (run + 1) rest
    else runEmit p minRun keep run ++ c :: collapseGo p minRun keep 0 rest

/-- Global replace of a maximal run of `minRun`-or-more `p`s by `keep` `p`s. -/
def collapseRun (p : Char) (minRun keep : Nat) (l : List Char) : List Char :=
  collapseGo p minRun keep 0 l

def dqNorm (c : Char) : Char := if dqCode c.toNat then '"' else c

def sqNorm (c : Char) : Char := if sqCode c.toNat then Char.ofNat 39 else c

/-- Drop trailing JavaScript white space. -/
def dropTrail (l : List Char) : List Char := (l.reverse.dropWhile isWsJS).reverse

/-- `String.prototype.trim`. -/
def trimJS (l : List Char) : List Char := dropTrail (l.dropWhile isWsJS)

/-- `cleanTextForTTS`: the normalizer's replace chain, in source order. -/
def cleanTextForTTS (l : List Char) : List Char :=
  trimJS (List.map sqNorm (List.map dqNorm (
    collapseRun '.' 4 3 (collapseRun '?' 3 2 (collapseRun '!' 3 2 (
      collapseRun '\n' 3 2 (
        spaceAfter ',' false (spaceAfter '!' true (spaceAfter '?' true (
          spaceAfter '.' true (decorToSpace (removeCtrl l))))))))))))

/-- One pass of `cleanedText.split(/([.\n?!])\s*/)`: `skip` is set exactly
while the `\s*` after a just-matched delimiter is being consumed, and `acc`
holds the current text piece in reverse. -/
def segGo (skip : Bool) (acc : List Char) : List Char → List (List Char)
  | [] => [acc.reverse]
  | c :: rest =>
    if skip && isWsJS c then segGo true acc rest
    else if isDelim c then acc.reverse :: [c] :: segGo true [] rest
    else segGo false (c :: acc) rest

/-- `cleanedText.split(/([.\n?!])\s*/)`: the pieces between matches with the
captured delimiters spliced in between. -/
def splitSegs (l : List Char) : List (List Char) := segGo false [] l

/-- The accumulation loop of `splitTextIntoChunks`: skip empty segments,
flush the (trimmed) buffer when adding the next segment would exceed
`maxChars`, and flush the final buffer at the end. -/
def chunkLoop (maxChars : Nat) (cur : List Char) : List (List Char) → List (List Char)
  | [] => if trimJS cur = [] then [] else [trimJS cur]
  | seg :: segs =>
    if seg = [] then chunkLoop maxChars cur segs
    else if maxChars < cur.length + seg.length then
      (if trimJS cur = [] then [] else [trimJS cur]) ++ chunkLoop maxChars seg segs
    else chunkLoop maxChars (cur ++ seg) segs

/-- `splitTextIntoChunks`. -/
def splitTextIntoChunks (text : List Char) (maxChars : Nat := 3000) : List (List Char) :=
  chunkLoop maxChars [] (splitSegs (cleanTextForTTS text))

/-- The reconstruction relation asserted by the specification: the target
equals the sections concatenated in order with at most one white-space
separator character reinserted at each boundary between consecutive
sections. -/
def reconOneWs : List (List Char) → List Char → Bool
  | [], t => t == []
  | [c], t => t == c
  | c :: c2 :: cs, t =>
    (t.take c.length == c) &&
    (let r := t.drop c.length
     reconOneWs (c2 :: cs) r ||
     (match r with
      | [] => false
      | w :: r2 => isWsJS w && reconOneWs (c2 :: cs) r2))

/-- `WsDel a b`: `b` is obtained from `a` by deleting some (possibly zero)
white-space characters; equivalently `b` is a subsequence of `a` whose
complement consists of white space only.  No non-white-space character is
lost, duplicated or reordered. -/
inductive WsDel : List Char → List Char → Prop
  | nil : WsDel [] []
  | keep (a : Char) (as bs : List Char) : WsDel as bs → WsDel (a :: as) (a :: bs)
  | del (a : Char) (as bs : List Char) :
      isWsJS a = true → WsDel as bs → WsDel (a :: as) bs

/-! ### Audio encoder (`audioBufferToWav`) and PCM decoding -/

/-- The slice of the Web Audio `AudioBuffer` interface used by the encoder:
channel count, sample rate, frame count (`length`), and per-channel sample
data (`getChannelData(ch)[i]` is `channelData ch i`). -/
structure AudioBuffer where
  numberOfChannels : Nat
  sampleRate : Nat
  length : Nat
  channelData : Nat → Nat → ℚ

/-- `DataView.setUint16 (littleEndian)` as a byte list (values are reduced
mod 2^16 as the view does). -/
def u16LE (n : Nat) : List Nat := [n % 256, n / 256 % 256]

/-- `DataView.setUint32 (littleEndian)` as a byte list. -/
def u32LE (n : Nat) : List Nat :=
  [n % 256, n / 256 % 256, n / 65536 % 256, n / 16777216 % 256]

/-- `DataView.setInt16 (littleEndian)`: two's-complement encoding (`%` on
`Int` is the Euclidean remainder, yielding the value in `[0, 2^16)`). -/
def i16LE (v : Int) : List Nat := u16LE (v % 65536).toNat

/-- `Math.max(-1, Math.min(1, sample))`. -/
def clampQ (s : ℚ) : ℚ := max (-1) (min 1 s)

/-- Truncation toward zero, as applied by `setInt16` to a non-integral
number (ECMAScript `ToIntegerOrInfinity`). -/
def truncQ (q : ℚ) : Int := q.num.tdiv (q.den : Int)

/-- `sample < 0 ? sample * 0x8000 : sample * 0x7FFF`, clamped first and
truncated to an integer by `setInt16`. -/
def toIntSample (s : ℚ) : Int :=
  if clampQ s < 0 then truncQ (clampQ s * 32768) else truncQ (clampQ s * 32767)

/-- The interleaved 16-bit little-endian sample data written at offset 44:
frame-major, channel-minor, matching
`offset + i * blockAlign + channel * bytesPerSample`. -/
def wavDataBytes (buf : AudioBuffer) : List Nat :=
  (List.range buf.length).flatMap (fun i =>
    (List.range buf.numberOfChannels).flatMap (fun ch =>
      i16LE (toIntSample (buf.channelData ch i))))

/-- The 44-byte RIFF/WAVE header written by `audioBufferToWav`, field by
field in source order. -/
def wavHeader (buf : AudioBuffer) : List Nat :=
  [82, 73, 70, 70] ++
  u32LE (36 + buf.length * (buf.numberOfChannels * 2)) ++
  [87, 65, 86, 69] ++ [102, 109, 116, 32] ++
  u32LE 16 ++ u16LE 1 ++ u16LE buf.numberOfChannels ++ u32LE buf.sampleRate ++
  u32LE (buf.sampleRate * (buf.numberOfChannels * 2)) ++
  u16LE (buf.numberOfChannels * 2) ++ u16LE 16 ++
  [100, 97, 116, 97] ++ u32LE (buf.length * (buf.numberOfChannels * 2))

/-- `audioBufferToWav`: header followed by the interleaved samples. -/
def audioBufferToWav (buf : AudioBuffer) : List Nat :=
  wavHeader buf ++ wavDataBytes buf

/-! Modelled from the spec: standard parsing of the 44-byte container header
(the repository itself only decodes headerless raw PCM; reading the channel
count at offset 22 and the sample rate at offset 24 follows the standard
layout that `audioBufferToWav` writes).  Sample extraction mirrors the
repository's `decodeAudioData` (`dataInt16[i * numChannels + channel] /
32768`). -/

def readU16LE (b : List Nat) (off : Nat) : Nat :=
  b.getD off 0 + 256 * b.getD (off + 1) 0

def readU32LE (b : List Nat) (off : Nat) : Nat :=
  b.getD off 0 + 256 * b.getD (off + 1) 0 + 65536 * b.getD (off + 2) 0 +
    16777216 * b.getD (off + 3) 0

/-- Signed 16-bit value from two little-endian bytes. -/
def i16OfBytes (lo hi : Nat) : Int :=
  if lo + 256 * hi < 32768 then (lo + 256 * hi : Int)
  else (lo + 256 * hi : Int) - 65536

def parseNumChannels (b : List Nat) : Nat := readU16LE b 22

def parseSampleRate (b : List Nat) : Nat := readU32LE b 24

/-- The sample of frame `frame`, channel `ch` recovered from the container
bytes, decoded as in `decodeAudioData`: `int16 / 32768`. -/
def parseSample (b : List Nat) (numChannels frame ch : Nat) : ℚ :=
  (i16OfBytes (b.getD (44 + 2 * (frame * numChannels + ch)) 0)
    (b.getD (44 + 2 * (frame * numChannels + ch) + 1) 0) : ℤ) / 32768

/-- `new Int16Array(data.buffer)[j]` for a byte array. -/
def int16At (bytes : List Nat) (j : Nat) : Int :=
  i16OfBytes (bytes.getD (2 * j) 0) (bytes.getD (2 * j + 1) 0)

/-- `decodeAudioData`: interleaved 16-bit PCM bytes to an `AudioBuffer`,
`channelData[i] = dataInt16[i * numChannels + channel] / 32768`. -/
def decodeAudioData (data : List Nat) (sampleRate numChannels : Nat) : AudioBuffer :=
  { numberOfChannels := numChannels
    sampleRate := sampleRate
    length := data.length / 2 / numChannels
    channelData := fun ch i => (int16At data (i * numChannels + ch) : ℤ) / 32768 }

/-! ### Synthesis service and section state machine -/

/-- The fixed instruction prepended to every synthesis request. -/
def promptHead : List Char :=
  "차분하고 지적인 호흡으로, 문장 사이의 여운을 충분히 두면서 자연스럽게 읽어주세요:\n\n".toList

/-- `String.prototype.substring(a, b)`: indices clamped to the length and
reordered. -/
def jsSubstring (l : List Char) (a b : Nat) : List Char :=
  (l.take (max (min a l.length) (min b l.length))).drop
    (min (min a l.length) (min b l.length))

/-- The sanitisation in `generateTTS`: strip the control ranges, then
`substring(0, 4000)`. -/
def sanitizeTTSText (text : List Char) : List Char :=
  jsSubstring (removeCtrl text) 0 4000

/-- The full string sent to the synthesis service. -/
def generateTTSRequestText (text : List Char) : List Char :=
  promptHead ++ sanitizeTTSText text

inductive GenError
  | noAudio

/-- `generateTTS` after the synthesis response arrives: the optional-chain
payload (`candidates?.[0]....inlineData?.data`, `none` when absent and the
empty string being falsy as well) either aborts with an error or is decoded
and re-encoded to a container blob. -/
def generateTTS (payload : Option (List Nat)) : Except GenError (List Nat) :=
  match payload with
  | none => Except.error GenError.noAudio
  | some data =>
    if data = [] then Except.error GenError.noAudio
    else Except.ok (audioBufferToWav (decodeAudioData data 24000 1))

inductive ChunkStatus
  | pending
  | analyzing
  | generating
  | ready
  | error
deriving DecidableEq

/-- The `TextChunk` record of the app state. -/
structure TextChunk where
  id : Nat
  content : List Char
  status : ChunkStatus
  audioUrl : Option Nat
  fileName : List Char
  index : Nat
  progress : Nat

/-- `setState(prev => ({...prev, chunks: prev.chunks.map(c => c.id === cid ?
f(c) : c)}))`. -/
def setChunk (cid : Nat) (f : TextChunk → TextChunk) (chunks : List TextChunk) :
    List TextChunk :=
  chunks.map (fun c => if c.id = cid then f c else c)

/-- `handleGenerateTTS`: the per-section pipeline with the two awaited
external calls abstracted as `Except` outcomes (`reflow` for
`restructureTextWithAI`, `synth` for `generateTTS`); returns the final chunk
list and the boolean result.  A thrown error from either call lands in the
single `catch`, which marks the section `error` and returns `false`. -/
def handleGenerateTTS (chunks : List TextChunk) (cid : Nat)
    (reflow : Except Unit (List Char)) (synth : List Char → Except Unit Nat) :
    List TextChunk × Bool :=
  match chunks.find? (fun c => c.id == cid) with
  | none => (chunks, true)
  | some ch =>
    if ch.status = ChunkStatus.ready then (chunks, true)
    else
      let s1 := setChunk cid (fun c => { c with status := ChunkStatus.analyzing }) chunks
      match reflow with
      | Except.error _ =>
        (setChunk cid (fun c => { c with status := ChunkStatus.error }) s1, false)
      | Except.ok restructured =>
        let s2 := setChunk cid
          (fun c => { c with content := restructured, status := ChunkStatus.generating }) s1
        match synth restructured with
        | Except.error _ =>
          (setChunk cid (fun c => { c with status := ChunkStatus.error }) s2, false)
        | Except.ok url =>
          (setChunk cid
            (fun c => { c with status := ChunkStatus.ready, audioUrl := some url }) s2, true)

/-- The concrete buffer of the specification's encoder example: 2 mono
frames with samples `[1.0, -1.0]` at rate 24000. -/
def wavExampleBuffer : AudioBuffer :=
  { numberOfChannels := 1, sampleRate := 24000, length := 2,
    channelData := fun _ i => if i = 0 then 1 else -1 }

/-- A one-frame mono buffer whose sample `65535/65536` (exactly
representable as a double) breaks the ±1-LSB round-trip bound. -/
def roundTripCounterBuffer : AudioBuffer :=
  { numberOfChannels := 1, sampleRate := 24000, length := 1,
    channelData := fun _ _ => 65535 / 65536 }

/-- A concrete in-range buffer used to witness the round-trip theorem. -/
def roundTripWitnessBuffer : AudioBuffer :=
  { numberOfChannels := 1, sampleRate := 8000, length := 1,
    channelData := fun _ _ => 1 }

end TTS

namespace TTS

/-! ### White-space and trim lemmas -/

theorem dropWhile_head_false {p : Char → Bool} {l : List Char} {c : Char}
    {r : List Char} (h : l.dropWhile p = c :: r) : p c = false := by
  induction l with
  | nil => simp [List.dropWhile] at h
  | cons a as ih =>
    rw [List.dropWhile_cons] at h
    by_cases hp : p a
    · exact ih (by simpa [hp] using h)
    · obtain ⟨rfl, -⟩ : a = c ∧ as = r := by
        simpa [hp] using h
      simpa using hp

theorem trimJS_length_le (l : List Char) : (trimJS l).length ≤ l.length := by
  unfold trimJS dropTrail
  calc ((l.dropWhile isWsJS).reverse.dropWhile isWsJS).reverse.length
      = ((l.dropWhile isWsJS).reverse.dropWhile isWsJS).length := by
        rw [List.length_reverse]
    _ ≤ (l.dropWhile isWsJS).reverse.length :=
        (List.dropWhile_sublist _).length_le
    _ = (l.dropWhile isWsJS).length := by rw [List.length_reverse]
    _ ≤ l.length := (List.dropWhile_sublist _).length_le

theorem trimJS_subset {l : List Char} : ∀ c ∈ trimJS l, c ∈ l := by
  intro c hc
  unfold trimJS dropTrail at hc
  rw [List.mem_reverse] at hc
  have h1 := (List.dropWhile_sublist (l := (l.dropWhile isWsJS).reverse)
    (p := isWsJS)).subset hc
  rw [List.mem_reverse] at h1
  exact (List.dropWhile_sublist (l := l) (p := isWsJS)).subset h1

theorem trimJS_eq_nil_of_ws {l : List Char} (h : ∀ c ∈ l, isWsJS c = true) :
    trimJS l = [] := by
  unfold trimJS dropTrail
  rw [List.dropWhile_eq_nil_iff.mpr h]
  rfl

theorem ws_of_trimJS_eq_nil {l : List Char} (h : trimJS l = []) :
    ∀ c ∈ l, isWsJS c = true := by
  unfold trimJS dropTrail at h
  rw [List.reverse_eq_nil_iff, List.dropWhile_eq_nil_iff] at h
  have hd : ∀ c ∈ l.dropWhile isWsJS, isWsJS c = true := by
    intro c hc
    exact h c (List.mem_reverse.mpr hc)
  intro c hc
  rw [← List.takeWhile_append_dropWhile (p := isWsJS) (l := l),
    List.mem_append] at hc
  rcases hc with hc | hc
  · exact List.mem_takeWhile_imp hc
  · exact hd c hc

theorem dropTrail_append_ws (l : List Char) :
    dropTrail l ++ (l.reverse.takeWhile isWsJS).reverse = l := by
  unfold dropTrail
  rw [← List.reverse_append, List.takeWhile_append_dropWhile, List.reverse_reverse]

theorem trimJS_append_decomp (l : List Char) :
    l = l.takeWhile isWsJS ++ trimJS l ++
      ((l.dropWhile isWsJS).reverse.takeWhile isWsJS).reverse := by
  unfold trimJS
  conv_lhs => rw [← List.takeWhile_append_dropWhile (p := isWsJS) (l := l)]
  rw [List.append_assoc, dropTrail_append_ws]

theorem dropWhile_idem (p : Char → Bool) (l : List Char) :
    (l.dropWhile p).dropWhile p = l.dropWhile p := by
  cases hd : l.dropWhile p with
  | nil => rfl
  | cons c r =>
    rw [List.dropWhile_cons, dropWhile_head_false hd]
    simp

theorem dropTrail_idem (l : List Char) : dropTrail (dropTrail l) = dropTrail l := by
  unfold dropTrail
  rw [List.reverse_reverse, dropWhile_idem]

theorem trimJS_idem (l : List Char) : trimJS (trimJS l) = trimJS l := by
  have h1 : (dropTrail (l.dropWhile isWsJS)).dropWhile isWsJS
      = dropTrail (l.dropWhile isWsJS) := by
    cases hd : dropTrail (l.dropWhile isWsJS) with
    | nil => rfl
    | cons c r =>
      have hsplit := dropTrail_append_ws (l.dropWhile isWsJS)
      rw [hd, List.cons_append] at hsplit
      rw [List.dropWhile_cons, dropWhile_head_false hsplit.symm]
      simp
  unfold trimJS
  rw [h1, dropTrail_idem]

/-! ### `WsDel` (reconstruction up to white-space deletion) -/

theorem WsDel.refl (l : List Char) : WsDel l l := by
  induction l with
  | nil => exact WsDel.nil
  | cons a as ih => exact WsDel.keep a as as ih

theorem WsDel.append {a b a' b' : List Char} (h : WsDel a b) (h' : WsDel a' b') :
    WsDel (a ++ a') (b ++ b') := by
  induction h with
  | nil => simpa using h'
  | keep c as bs _ ih => exact WsDel.keep c _ _ ih
  | del c as bs hws _ ih => exact WsDel.del c _ _ hws ih

theorem WsDel.ws_nil {w : List Char} (h : ∀ c ∈ w, isWsJS c = true) :
    WsDel w [] := by
  induction w with
  | nil => exact WsDel.nil
  | cons a as ih =>
    exact WsDel.del a as [] (h a (by simp)) (ih fun c hc => h c (by simp [hc]))

theorem WsDel.trans : ∀ {a b c : List Char}, WsDel a b → WsDel b c → WsDel a c
  | _, _, _, WsDel.nil, hbc => hbc
  | _, _, _, WsDel.keep x as _ h, WsDel.keep _ _ cs h2 =>
    WsDel.keep x as cs (WsDel.trans h h2)
  | _, _, _, WsDel.keep x as _ h, WsDel.del _ _ cs hws h2 =>
    WsDel.del x as cs hws (WsDel.trans h h2)
  | _, _, _, WsDel.del x as _ hws h, hbc =>
    WsDel.del x as _ hws (WsDel.trans h hbc)

theorem WsDel.of_dropWhile (l : List Char) : WsDel l (l.dropWhile isWsJS) := by
  induction l with
  | nil => exact WsDel.nil
  | cons a as ih =>
    rw [List.dropWhile_cons]
    by_cases hw : isWsJS a
    · simpa [hw] using WsDel.del a as _ hw ih
    · simpa [hw] using WsDel.keep a as as (WsDel.refl as)

theorem WsDel.of_dropTrail (l : List Char) : WsDel l (dropTrail l) := by
  have h2 : WsDel (dropTrail l ++ (l.reverse.takeWhile isWsJS).reverse)
      (dropTrail l) := by
    have h3 := WsDel.append (WsDel.refl (dropTrail l))
      (WsDel.ws_nil (w := (l.reverse.takeWhile isWsJS).reverse)
        (fun c hc => List.mem_takeWhile_imp (List.mem_reverse.mp hc)))
    simpa using h3
  nth_rewrite 1 [← dropTrail_append_ws l]
  exact h2

theorem WsDel.of_trimJS (l : List Char) : WsDel l (trimJS l) :=
  WsDel.trans (WsDel.of_dropWhile l) (WsDel.of_dropTrail (l.dropWhile isWsJS))

/-! ### The split/accumulate loop loses only white space -/

theorem segGo_wsdel (l : List Char) :
    (∀ acc, WsDel (acc.reverse ++ l) ((segGo false acc l).flatten)) ∧
    WsDel l ((segGo true [] l).flatten) := by
  induction l with
  | nil =>
    constructor
    · intro acc
      simp only [segGo, List.flatten_cons, List.flatten_nil, List.append_nil]
      exact WsDel.refl _
    · simp only [segGo, List.reverse_nil, List.flatten_cons, List.flatten_nil]
      exact WsDel.nil
  | cons c rest ih =>
    constructor
    · intro acc
      by_cases hd : isDelim c
      · simp only [segGo, Bool.false_and, Bool.false_eq_true, if_false, hd,
          if_true, List.flatten_cons]
        have h2 : WsDel (acc.reverse ++ (c :: rest))
            (acc.reverse ++ (c :: (segGo true [] rest).flatten)) :=
          WsDel.append (WsDel.refl acc.reverse)
            (WsDel.keep c rest _ ih.2)
        simpa using h2
      · simp only [segGo, Bool.false_and, Bool.false_eq_true, if_false, hd]
        have h2 := ih.1 (c :: acc)
        simpa using h2
    · by_cases hw : isWsJS c
      · simp only [segGo, Bool.true_and, hw, if_true]
        exact WsDel.del c rest _ hw ih.2
      · by_cases hd : isDelim c
        · simp only [segGo, Bool.true_and, hw, Bool.false_eq_true, if_false,
            hd, if_true, List.reverse_nil, List.flatten_cons, List.flatten_nil,
            List.nil_append, List.singleton_append]
          exact WsDel.keep c rest _ ih.2
        · simp only [segGo, Bool.true_and, hw, Bool.false_eq_true, if_false, hd]
          have h2 := ih.1 [c]
          simpa using h2

theorem chunkLoop_wsdel (m : Nat) (segs : List (List Char)) :
    ∀ cur, WsDel (cur ++ segs.flatten) ((chunkLoop m cur segs).flatten) := by
  induction segs with
  | nil =>
    intro cur
    simp only [chunkLoop, List.flatten_nil, List.append_nil]
    by_cases h : trimJS cur = []
    · simp only [h, if_true, List.flatten_nil]
      exact WsDel.ws_nil (ws_of_trimJS_eq_nil h)
    · simp only [h, if_false, List.flatten_cons, List.flatten_nil, List.append_nil]
      exact WsDel.of_trimJS cur
  | cons seg segs ih =>
    intro cur
    by_cases hseg : seg = []
    · subst hseg
      simp only [chunkLoop, if_pos rfl, List.flatten_cons, List.nil_append]
      exact ih cur
    · rw [chunkLoop, if_neg hseg]
      by_cases hover : m < cur.length + seg.length
      · rw [if_pos hover, List.flatten_append, List.flatten_cons]
        by_cases htr : trimJS cur = []
        · rw [if_pos htr]
          have h2 := WsDel.append (WsDel.ws_nil (ws_of_trimJS_eq_nil htr)) (ih seg)
          simpa using h2
        · rw [if_neg htr]
          have h2 := WsDel.append (WsDel.of_trimJS cur) (ih seg)
          simpa using h2
      · rw [if_neg hover, List.flatten_cons]
        have h2 := ih (cur ++ seg)
        simpa [List.append_assoc] using h2

/-! ### Claim C1 -/

/-- C1 (counterexample): for the input `".  a"` the single returned section
is `".a"`, but the normalized text is `".  a"`; reinserting at most one
white-space character at each boundary between consecutive sections cannot
reconstruct it (two spaces were consumed at one split point), so the claimed
reconstruction fails. -/
theorem splitChunks_one_ws_reconstruction_false :
    reconOneWs (splitTextIntoChunks (".  a".toList) 3000)
      (cleanTextForTTS (".  a".toList)) = false := by decide

/-- C1 (amended): concatenating the returned sections in order yields the
normalized text with only white-space characters deleted (the runs consumed
by the split's `\s*` — possibly longer than one character and possibly
interior to a section — and the white space trimmed at section edges); every
non-white-space character of `cleanTextForTTS text` appears exactly once, in
order, with no loss and no duplication. -/
theorem splitTextIntoChunks_reconstructs_mod_ws (text : List Char) (maxChars : Nat) :
    WsDel (cleanTextForTTS text) ((splitTextIntoChunks text maxChars).flatten) := by
  have h1 := (segGo_wsdel (cleanTextForTTS text)).1 []
  simp only [List.reverse_nil, List.nil_append] at h1
  have h2 := chunkLoop_wsdel maxChars (splitSegs (cleanTextForTTS text)) []
  simp only [List.nil_append] at h2
  unfold splitTextIntoChunks
  exact WsDel.trans h1 h2

/-! ### Claims C4 and C5 -/

/-- C4 (counterexample): `cleanTextForTTS "Hello.World!!!!"` is not the
specified `"Hello. World!!"`. -/
theorem cleanTextForTTS_example_claim_false :
    cleanTextForTTS ("Hello.World!!!!".toList) ≠ "Hello. World!!".toList := by
  decide

/-- C4 (amended): `cleanTextForTTS "Hello.World!!!!"` equals
`"Hello. World! !! !"`: a space is inserted after the period, but the
exclamation-spacing rule (which runs before the collapse rule) also inserts
spaces inside the run `!!!!` (each non-overlapping `!!` becomes `! !`), so
no run of three or more `!` remains for the collapse rule to shorten. -/
theorem cleanTextForTTS_example_actual :
    cleanTextForTTS ("Hello.World!!!!".toList) = "Hello. World! !! !".toList := by
  decide

/-- C5 (counterexample): `splitTextIntoChunks "A. B. C." 4` does not return
`["A.", "B.", "C."]`. -/
theorem splitChunks_example_claim_false :
    splitTextIntoChunks ("A. B. C.".toList) 4 ≠
      ["A.".toList, "B.".toList, "C.".toList] := by decide

/-- C5 (amended): `splitTextIntoChunks "A. B. C." 4` returns the two
sections `["A.B.", "C."]`: the split consumes the space after each period,
so the buffer grows `"A"`, `"A."`, `"A.B"` (3 chars), `"A.B."` (4 chars ≤ 4),
and only adding `"C"` would exceed 4, flushing `"A.B."`. -/
theorem splitChunks_example_actual :
    splitTextIntoChunks ("A. B. C.".toList) 4 = ["A.B.".toList, "C.".toList] := by
  decide

/-! ### Claim C2 -/

theorem chunkLoop_mem (m : Nat) (segs : List (List Char)) :
    ∀ cur c, c ∈ chunkLoop m cur segs →
      c.length ≤ m ∨ (m < cur.length ∧ c = trimJS cur) ∨
      ∃ s ∈ segs, m < s.length ∧ c = trimJS s := by
  induction segs with
  | nil =>
    intro cur c hc
    simp only [chunkLoop] at hc
    by_cases h : trimJS cur = []
    · simp [h] at hc
    · simp only [h, if_false, List.mem_singleton] at hc
      subst hc
      by_cases hm : (trimJS cur).length ≤ m
      · exact Or.inl hm
      · refine Or.inr (Or.inl ⟨?_, rfl⟩)
        have := trimJS_length_le cur
        omega
  | cons seg segs ih =>
    intro cur c hc
    rw [chunkLoop] at hc
    by_cases hseg : seg = []
    · rw [if_pos hseg] at hc
      rcases ih cur c hc with h | h | ⟨s, hs, h⟩
      · exact Or.inl h
      · exact Or.inr (Or.inl h)
      · exact Or.inr (Or.inr ⟨s, List.mem_cons_of_mem _ hs, h⟩)
    · rw [if_neg hseg] at hc
      by_cases hover : m < cur.length + seg.length
      · rw [if_pos hover, List.mem_append] at hc
        rcases hc with hc | hc
        · by_cases htr : trimJS cur = []
          · simp [htr] at hc
          · simp only [htr, if_false, List.mem_singleton] at hc
            subst hc
            by_cases hm : (trimJS cur).length ≤ m
            · exact Or.inl hm
            · refine Or.inr (Or.inl ⟨?_, rfl⟩)
              have := trimJS_length_le cur
              omega
        · rcases ih seg c hc with h | ⟨h1, h2⟩ | ⟨s, hs, h⟩
          · exact Or.inl h
          · exact Or.inr (Or.inr ⟨seg, List.mem_cons_self _ _, h1, h2⟩)
          · exact Or.inr (Or.inr ⟨s, List.mem_cons_of_mem _ hs, h⟩)
      · rw [if_neg hover] at hc
        rcases ih (cur ++ seg) c hc with h | ⟨h1, h2⟩ | ⟨s, hs, h⟩
        · exact Or.inl h
        · exfalso
          rw [List.length_append] at h1
          omega
        · exact Or.inr (Or.inr ⟨s, List.mem_cons_of_mem _ hs, h⟩)

/-- C2 (confirmed): for `maxChars > 0`, every returned section either has
length at most `maxChars`, or is (the trim of) a single undivided token of
the delimiter split whose own length already exceeds `maxChars`; such a
token becomes its own section, never truncated or split mid-token (the
universal per-section edge-white-space trim is the only difference between
the token and the section). -/
theorem splitTextIntoChunks_oversized (text : List Char) (maxChars : Nat)
    (h : 0 < maxChars) :
    ∀ c ∈ splitTextIntoChunks text maxChars,
      c.length ≤ maxChars ∨
      ∃ s ∈ splitSegs (cleanTextForTTS text), maxChars < s.length ∧ c = trimJS s := by
  intro c hc
  rcases chunkLoop_mem maxChars _ [] c hc with h1 | ⟨h1, -⟩ | h1
  · exact Or.inl h1
  · simp at h1
  · exact Or.inr h1

theorem splitTextIntoChunks_oversized_witness :
    0 < 2 ∧ ∀ c ∈ splitTextIntoChunks ("ab. cd".toList) 2,
      c.length ≤ 2 ∨ ∃ s ∈ splitSegs (cleanTextForTTS ("ab. cd".toList)),
        2 < s.length ∧ c = trimJS s :=
  ⟨by decide, splitTextIntoChunks_oversized ("ab. cd".toList) 2 (by decide)⟩

/-! ### Claim C6 -/

theorem flatMap_const_length (f : Nat → List Nat) (k : Nat)
    (h : ∀ i, (f i).length = k) :
    ∀ n, ((List.range n).flatMap f).length = n * k := by
  intro n
  induction n with
  | zero => simp
  | succ n ih =>
    rw [List.range_succ, List.flatMap_append, List.length_append, ih]
    have h2 : ([n].flatMap f).length = k := by simp [h]
    rw [h2]
    ring

theorem wavHeader_length (buf : AudioBuffer) : (wavHeader buf).length = 44 := rfl

theorem wavDataBytes_length (buf : AudioBuffer) :
    (wavDataBytes buf).length = buf.length * (buf.numberOfChannels * 2) := by
  unfold wavDataBytes
  apply flatMap_const_length
  intro i
  apply flatMap_const_length
  intro ch
  rfl

theorem truncQ_intCast (n : ℤ) : truncQ ((n : ℚ)) = n := by
  simp [truncQ, Rat.num_intCast, Rat.den_intCast]

theorem clampQ_eq_self {s : ℚ} (h1 : -1 ≤ s) (h2 : s ≤ 1) : clampQ s = s := by
  unfold clampQ
  rw [min_eq_right h2, max_eq_right h1]

theorem toIntSample_one : toIntSample 1 = 32767 := by
  unfold toIntSample
  rw [clampQ_eq_self (by norm_num) (by norm_num), if_neg (by norm_num)]
  rw [show ((1 : ℚ) * 32767) = ((32767 : ℤ) : ℚ) by norm_num]
  exact truncQ_intCast 32767

theorem toIntSample_negOne : toIntSample (-1) = -32768 := by
  unfold toIntSample
  rw [clampQ_eq_self (by norm_num) (by norm_num), if_pos (by norm_num)]
  rw [show ((-1 : ℚ) * 32768) = ((-32768 : ℤ) : ℚ) by norm_num]
  exact truncQ_intCast (-32768)

/-- C6 (confirmed): the encoder's output has exactly
`44 + frameCount * channelCount * 2` bytes; for the 2-frame mono example
with samples `[1.0, -1.0]` at rate 24000 the output is 48 bytes, bytes 44-45
are the little-endian encoding of 32767 (`[255, 127]`), and bytes 46-47 are
the little-endian two's-complement encoding of -32768 (`[0, 128]`). -/
theorem audioBufferToWav_size_and_example :
    (∀ buf : AudioBuffer,
      (audioBufferToWav buf).length = 44 + buf.length * buf.numberOfChannels * 2) ∧
    (audioBufferToWav wavExampleBuffer).length = 48 ∧
    (audioBufferToWav wavExampleBuffer).drop 44 = [255, 127, 0, 128] := by
  have hlen : ∀ buf : AudioBuffer,
      (audioBufferToWav buf).length = 44 + buf.length * buf.numberOfChannels * 2 := by
    intro buf
    unfold audioBufferToWav
    rw [List.length_append, wavHeader_length, wavDataBytes_length]
    ring
  refine ⟨hlen, by rw [hlen]; rfl, ?_⟩
  have hdata : wavDataBytes wavExampleBuffer = i16LE 32767 ++ i16LE (-32768) := by
    unfold wavDataBytes wavExampleBuffer
    simp [List.range_succ, toIntSample_one, toIntSample_negOne]
  unfold audioBufferToWav
  rw [show (44 : Nat) = (wavHeader wavExampleBuffer).length from rfl,
    List.drop_left, hdata]
  decide

/-! ### Claim C7 -/

theorem truncQ_eq_floor {q : ℚ} (h : 0 ≤ q) : truncQ q = ⌊q⌋ := by
  unfold truncQ
  rw [Rat.floor_def]
  exact Int.tdiv_eq_ediv (Rat.num_nonneg.mpr h) (Int.natCast_nonneg _)

theorem truncQ_neg (q : ℚ) : truncQ (-q) = -truncQ q := by
  unfold truncQ
  rw [Rat.neg_num, Rat.neg_den, Int.neg_tdiv]

theorem truncQ_eq_ceil {q : ℚ} (h : q ≤ 0) : truncQ q = ⌈q⌉ := by
  have h2 : truncQ q = -truncQ (-q) := by rw [truncQ_neg, neg_neg]
  rw [h2, truncQ_eq_floor (by linarith : (0 : ℚ) ≤ -q)]
  have h3 := Int.ceil_neg (a := -q)
  rw [neg_neg] at h3
  omega

theorem toIntSample_mem (s : ℚ) :
    -32768 ≤ toIntSample s ∧ toIntSample s ≤ 32767 := by
  have hc1 : -1 ≤ clampQ s := le_max_left _ _
  have hc2 : clampQ s ≤ 1 := max_le (by norm_num) (min_le_left _ _)
  unfold toIntSample
  by_cases h : clampQ s < 0
  · rw [if_pos h, truncQ_eq_ceil (by nlinarith)]
    constructor
    · have hx : ((-32768 : ℤ) : ℚ) ≤ clampQ s * 32768 := by push_cast; nlinarith
      have := Int.ceil_mono hx
      rwa [Int.ceil_intCast] at this
    · have hx : clampQ s * 32768 ≤ ((32767 : ℤ) : ℚ) := by push_cast; nlinarith
      exact Int.ceil_le.mpr hx
  · push_neg at h
    rw [if_neg (by exact not_lt.mpr h), truncQ_eq_floor (by nlinarith)]
    constructor
    · have hx : ((-32768 : ℤ) : ℚ) ≤ clampQ s * 32767 := by push_cast; nlinarith
      exact Int.le_floor.mpr hx
    · have hx : clampQ s * 32767 ≤ ((32767 : ℤ) : ℚ) := by push_cast; nlinarith
      have := Int.floor_mono hx
      rwa [Int.floor_intCast] at this

theorem i16LE_roundtrip {v : ℤ} (h1 : -32768 ≤ v) (h2 : v ≤ 32767) :
    i16OfBytes ((i16LE v).getD 0 0) ((i16LE v).getD 1 0) = v := by
  unfold i16LE u16LE i16OfBytes
  simp only [List.getD_cons_zero, List.getD_cons_succ]
  have he1 : 0 ≤ v % 65536 := Int.emod_nonneg v (by norm_num)
  have hw : ((v % 65536).toNat : ℤ) = v % 65536 := Int.toNat_of_nonneg he1
  split <;> omega

theorem flatMap_getD (f : Nat → List Nat) (L : Nat) (hL : ∀ i, (f i).length = L) :
    ∀ (n j r : Nat), j < n → r < L →
      ((List.range n).flatMap f).getD (L * j + r) 0 = (f j).getD r 0 := by
  intro n
  induction n with
  | zero =>
    intro j r hj hr
    exact absurd hj (by omega)
  | succ n ih =>
    intro j r hj hr
    rw [List.range_succ, List.flatMap_append]
    by_cases hjn : j < n
    · rw [List.getD_append]
      · exact ih j r hjn hr
      · rw [flatMap_const_length f L hL n]
        calc L * j + r < L * j + L := by omega
          _ = L * (j + 1) := by ring
          _ ≤ L * n := Nat.mul_le_mul_left L (by omega)
          _ = n * L := Nat.mul_comm L n
    · have hjeq : j = n := by omega
      subst hjeq
      rw [List.getD_append_right]
      · rw [flatMap_const_length f L hL]
        have hidx : L * j + r - j * L = r := by
          rw [Nat.mul_comm]
          omega
        rw [hidx]
        simp
      · rw [flatMap_const_length f L hL, Nat.mul_comm]
        omega

theorem wavDataBytes_getD (buf : AudioBuffer) (ch i : Nat)
    (hch : ch < buf.numberOfChannels) (hi : i < buf.length) :
    (wavDataBytes buf).getD (buf.numberOfChannels * 2 * i + (2 * ch + 0)) 0
      = (i16LE (toIntSample (buf.channelData ch i))).getD 0 0 ∧
    (wavDataBytes buf).getD (buf.numberOfChannels * 2 * i + (2 * ch + 1)) 0
      = (i16LE (toIntSample (buf.channelData ch i))).getD 1 0 := by
  unfold wavDataBytes
  have houter : ∀ i0, ((List.range buf.numberOfChannels).flatMap
      (fun c => i16LE (toIntSample (buf.channelData c i0)))).length
      = buf.numberOfChannels * 2 := by
    intro i0
    apply flatMap_const_length
    intro c
    rfl
  constructor
  · rw [flatMap_getD _ _ houter _ _ _ hi (by omega),
      flatMap_getD (fun c => i16LE (toIntSample (buf.channelData c i))) 2
        (fun c => rfl) _ ch 0 hch (by omega)]
  · rw [flatMap_getD _ _ houter _ _ _ hi (by omega),
      flatMap_getD (fun c => i16LE (toIntSample (buf.channelData c i))) 2
        (fun c => rfl) _ ch 1 hch (by omega)]

/-- The quantization error of one encode/decode round trip is strictly
below two decoder steps (`2/32768`): the negative side truncates toward
zero after scaling by 32768 (error below one step), while the non-negative
side scales by 32767 but decodes by 32768, adding up to one more step. -/
theorem decode_err {s : ℚ} (h1 : -1 ≤ s) (h2 : s ≤ 1) :
    |((toIntSample s : ℤ) : ℚ) / 32768 - s| < 2 / 32768 := by
  have hcl := clampQ_eq_self h1 h2
  have key : |((toIntSample s : ℤ) : ℚ) - s * 32768| < 2 := by
    unfold toIntSample
    rw [hcl]
    by_cases h : s < 0
    · rw [if_pos h, truncQ_eq_ceil (by nlinarith)]
      have hb1 : s * 32768 ≤ ((⌈s * 32768⌉ : ℤ) : ℚ) := Int.le_ceil _
      have hb2 : ((⌈s * 32768⌉ : ℤ) : ℚ) < s * 32768 + 1 := Int.ceil_lt_add_one _
      rw [abs_lt]
      constructor <;> linarith
    · push_neg at h
      rw [if_neg (not_lt.mpr h), truncQ_eq_floor (by nlinarith)]
      have hb1 : ((⌊s * 32767⌋ : ℤ) : ℚ) ≤ s * 32767 := Int.floor_le _
      have hb2 : s * 32767 - 1 < ((⌊s * 32767⌋ : ℤ) : ℚ) := Int.sub_one_lt_floor _
      have hspread : s * 32768 = s * 32767 + s := by ring
      rw [abs_lt]
      constructor <;> linarith
  have h32 : (0 : ℚ) < 32768 := by norm_num
  have heq : ((toIntSample s : ℤ) : ℚ) / 32768 - s
      = (((toIntSample s : ℤ) : ℚ) - s * 32768) / 32768 := by ring
  rw [heq, abs_div, abs_of_pos h32, div_lt_div_iff_of_pos_right h32]
  exact key

set_option maxHeartbeats 1600000 in
/-- C7 (amended): encoding then standard container parsing recovers the
channel count (field at offset 22, valid for counts below 2^16), the sample
rate (offset 24, below 2^32), and every sample value within strictly less
than 2 LSB (`2/32768`) of the original; the ±1-LSB bound of the claim fails
(see the counterexample). -/
theorem audioBufferToWav_roundTrip_two_lsb (buf : AudioBuffer)
    (hnc : buf.numberOfChannels < 65536)
    (hsr : buf.sampleRate < 4294967296)
    (hs : ∀ ch, ch < buf.numberOfChannels → ∀ i, i < buf.length →
      -1 ≤ buf.channelData ch i ∧ buf.channelData ch i ≤ 1) :
    parseNumChannels (audioBufferToWav buf) = buf.numberOfChannels ∧
    parseSampleRate (audioBufferToWav buf) = buf.sampleRate ∧
    (∀ ch, ch < buf.numberOfChannels → ∀ i, i < buf.length →
      |parseSample (audioBufferToWav buf) buf.numberOfChannels i ch -
        buf.channelData ch i| < 2 / 32768) := by
  have hlen := wavHeader_length buf
  refine ⟨?_, ?_, ?_⟩
  · unfold parseNumChannels readU16LE audioBufferToWav
    rw [List.getD_append _ _ _ _ (by rw [hlen]; omega),
      List.getD_append _ _ _ _ (by rw [hlen]; omega),
      show (wavHeader buf).getD 22 0 = buf.numberOfChannels % 256 from rfl,
      show (wavHeader buf).getD 23 0 = buf.numberOfChannels / 256 % 256 from rfl]
    omega
  · unfold parseSampleRate readU32LE audioBufferToWav
    rw [List.getD_append _ _ _ _ (by rw [hlen]; omega),
      List.getD_append _ _ _ _ (by rw [hlen]; omega),
      List.getD_append _ _ _ _ (by rw [hlen]; omega),
      List.getD_append _ _ _ _ (by rw [hlen]; omega),
      show (wavHeader buf).getD 24 0 = buf.sampleRate % 256 from rfl,
      show (wavHeader buf).getD 25 0 = buf.sampleRate / 256 % 256 from rfl,
      show (wavHeader buf).getD 26 0 = buf.sampleRate / 65536 % 256 from rfl,
      show (wavHeader buf).getD 27 0 = buf.sampleRate / 16777216 % 256 from rfl]
    omega
  · intro ch hch i hi
    unfold parseSample audioBufferToWav
    rw [List.getD_append_right _ _ _ _ (by rw [hlen]; omega),
      List.getD_append_right _ _ _ _ (by rw [hlen]; omega), hlen,
      show 44 + 2 * (i * buf.numberOfChannels + ch) - 44
        = buf.numberOfChannels * 2 * i + (2 * ch + 0) from by ring_nf; omega,
      show 44 + 2 * (i * buf.numberOfChannels + ch) + 1 - 44
        = buf.numberOfChannels * 2 * i + (2 * ch + 1) from by ring_nf; omega,
      (wavDataBytes_getD buf ch i hch hi).1,
      (wavDataBytes_getD buf ch i hch hi).2]
    obtain ⟨hb1, hb2⟩ := toIntSample_mem (buf.channelData ch i)
    rw [i16LE_roundtrip hb1 hb2]
    exact decode_err (hs ch hch i hi).1 (hs ch hch i hi).2

/-- C7 (counterexample): for the mono buffer with single sample
`65535/65536` (a value exactly representable as a double), the decoded
sample is `32766/32768` and the round-trip error is `3/65536`, which
exceeds one least-significant bit (`1/32768 = 2/65536`); the claimed ±1-LSB
recovery is false. -/
theorem audioBufferToWav_one_lsb_false :
    ¬ |parseSample (audioBufferToWav roundTripCounterBuffer) 1 0 0 -
        roundTripCounterBuffer.channelData 0 0| ≤ 1 / 32768 := by
  have hts : toIntSample (65535 / 65536) = 32766 := by
    unfold toIntSample
    rw [clampQ_eq_self (by norm_num) (by norm_num), if_neg (by norm_num),
      truncQ_eq_floor (by norm_num)]
    rw [Int.floor_eq_iff]
    constructor <;> norm_num
  have hwav : audioBufferToWav roundTripCounterBuffer
      = wavHeader roundTripCounterBuffer ++ i16LE 32766 := by
    unfold audioBufferToWav
    congr 1
    show wavDataBytes roundTripCounterBuffer = i16LE 32766
    unfold wavDataBytes
    rw [show roundTripCounterBuffer.length = 1 from rfl,
      show roundTripCounterBuffer.numberOfChannels = 1 from rfl]
    simp only [List.range_succ, List.range_zero, List.nil_append,
      List.flatMap_cons, List.flatMap_nil, List.append_nil]
    rw [show roundTripCounterBuffer.channelData 0 0 = 65535 / 65536 from rfl, hts]
  rw [hwav]
  have hbytes : i16OfBytes
      ((wavHeader roundTripCounterBuffer ++ i16LE 32766).getD (44 + 2 * (0 * 1 + 0)) 0)
      ((wavHeader roundTripCounterBuffer ++ i16LE 32766).getD (44 + 2 * (0 * 1 + 0) + 1) 0)
      = 32766 := by decide
  unfold parseSample
  rw [hbytes, show roundTripCounterBuffer.channelData 0 0 = 65535 / 65536 from rfl]
  intro hcontra
  rw [abs_le] at hcontra
  have hlow := hcontra.1
  norm_num at hlow

theorem audioBufferToWav_roundTrip_witness :
    (roundTripWitnessBuffer.numberOfChannels < 65536 ∧
      roundTripWitnessBuffer.sampleRate < 4294967296 ∧
      (∀ ch, ch < roundTripWitnessBuffer.numberOfChannels →
        ∀ i, i < roundTripWitnessBuffer.length →
        -1 ≤ roundTripWitnessBuffer.channelData ch i ∧
          roundTripWitnessBuffer.channelData ch i ≤ 1)) ∧
    (parseNumChannels (audioBufferToWav roundTripWitnessBuffer) =
        roundTripWitnessBuffer.numberOfChannels ∧
      parseSampleRate (audioBufferToWav roundTripWitnessBuffer) =
        roundTripWitnessBuffer.sampleRate ∧
      (∀ ch, ch < roundTripWitnessBuffer.numberOfChannels →
        ∀ i, i < roundTripWitnessBuffer.length →
        |parseSample (audioBufferToWav roundTripWitnessBuffer)
            roundTripWitnessBuffer.numberOfChannels i ch -
          roundTripWitnessBuffer.channelData ch i| < 2 / 32768)) :=
  ⟨⟨by decide, by decide, by decide⟩,
    audioBufferToWav_roundTrip_two_lsb roundTripWitnessBuffer (by decide)
      (by decide) (by decide)⟩

theorem take_min_length (l : List Char) (n : Nat) :
    l.take (min n l.length) = l.take n := by
  rcases le_total n l.length with h | h
  · rw [min_eq_left h]
  · rw [min_eq_right h, List.take_length, List.take_of_length_le h]

theorem jsSubstring_zero (l : List Char) (b : Nat) : jsSubstring l 0 b = l.take b := by
  unfold jsSubstring
  simp [take_min_length]

/-- C9 (confirmed): the string sent to the synthesis service is the fixed
instruction prefix followed by the input with the control ranges
U+0000–U+001F and U+007F–U+009F removed and then truncated to its first 4000
characters; any sanitized content beyond 4000 characters is dropped, and the
sent string never exceeds the prefix length plus 4000. -/
theorem generateTTSRequestText_spec (text : List Char) :
    generateTTSRequestText text = promptHead ++ (removeCtrl text).take 4000 ∧
    (generateTTSRequestText text).length ≤ promptHead.length + 4000 := by
  have h1 : generateTTSRequestText text = promptHead ++ (removeCtrl text).take 4000 := by
    unfold generateTTSRequestText sanitizeTTSText
    rw [jsSubstring_zero]
  refine ⟨h1, ?_⟩
  rw [h1, List.length_append]
  have h2 := List.length_take 4000 (removeCtrl text)
  omega

/-! ### Claim C8 -/

theorem setChunk_filter_ne (cid : Nat) (f : TextChunk → TextChunk)
    (hid : ∀ x, (f x).id = x.id) :
    ∀ l : List TextChunk, (setChunk cid f l).filter (fun c => c.id != cid) =
      l.filter (fun c => c.id != cid) := by
  intro l
  unfold setChunk
  induction l with
  | nil => rfl
  | cons x xs ih =>
    rw [List.map_cons, List.filter_cons, List.filter_cons]
    by_cases hx : x.id = cid
    · rw [if_pos hx]
      simp only [hid, hx, bne_self_eq_false, Bool.false_eq_true, if_false]
      exact ih
    · rw [if_neg hx]
      have hb : (x.id != cid) = true := by simpa using hx
      rw [hb]
      simp only [if_true]
      rw [ih]

theorem mem_setChunk_status {cid : Nat} {st : ChunkStatus} {l : List TextChunk} :
    ∀ c ∈ setChunk cid (fun c => { c with status := st }) l,
      c.id = cid → c.status = st := by
  intro c hc hcid
  unfold setChunk at hc
  rw [List.mem_map] at hc
  obtain ⟨pre, hpre, rfl⟩ := hc
  by_cases hp : pre.id = cid
  · simp [hp]
  · rw [if_neg hp] at hcid ⊢
    exact absurd hcid hp

theorem handleGenerateTTS_failure (chunks : List TextChunk) (cid : Nat)
    (ch : TextChunk) (r : Except Unit (List Char)) (s : List Char → Except Unit Nat)
    (hfind : chunks.find? (fun c => c.id == cid) = some ch)
    (hnr : ch.status ≠ ChunkStatus.ready)
    (hfail : r = Except.error () ∨ ∃ t, r = Except.ok t ∧ s t = Except.error ()) :
    (handleGenerateTTS chunks cid r s).2 = false ∧
    (∀ c ∈ (handleGenerateTTS chunks cid r s).1, c.id = cid →
      c.status = ChunkStatus.error) ∧
    (handleGenerateTTS chunks cid r s).1.filter (fun c => c.id != cid) =
      chunks.filter (fun c => c.id != cid) := by
  unfold handleGenerateTTS
  rw [hfind]
  dsimp only []
  rw [if_neg hnr]
  rcases hfail with rfl | ⟨t, rfl, hs⟩
  · dsimp only []
    refine ⟨rfl, ?_, ?_⟩
    · intro c hc hcid
      exact mem_setChunk_status c hc hcid
    · rw [setChunk_filter_ne cid
          (fun c => { c with status := ChunkStatus.error }) (fun x => rfl),
        setChunk_filter_ne cid
          (fun c => { c with status := ChunkStatus.analyzing }) (fun x => rfl)]
  · dsimp only []
    rw [hs]
    dsimp only []
    refine ⟨rfl, ?_, ?_⟩
    · intro c hc hcid
      exact mem_setChunk_status c hc hcid
    · rw [setChunk_filter_ne cid
          (fun c => { c with status := ChunkStatus.error }) (fun x => rfl),
        setChunk_filter_ne cid
          (fun c => { c with content := t, status := ChunkStatus.generating })
          (fun x => rfl),
        setChunk_filter_ne cid
          (fun c => { c with status := ChunkStatus.analyzing }) (fun x => rfl)]

/-- C8 (confirmed): a synthesis response with no audio payload makes
`generateTTS` fail with an error instead of returning a result; and any
generation failure (reflow or synthesis) is caught at the section boundary
by `handleGenerateTTS`, which sets exactly that section's status to `error`
and returns `false`, leaving every other section unchanged (the function is
total, so the failure cannot terminate anything beyond the one call). -/
theorem generateTTS_failure_containment :
    (generateTTS none = Except.error GenError.noAudio) ∧
    (∀ (chunks : List TextChunk) (cid : Nat) (ch : TextChunk)
        (r : Except Unit (List Char)) (s : List Char → Except Unit Nat),
      chunks.find? (fun c => c.id == cid) = some ch →
      ch.status ≠ ChunkStatus.ready →
      (r = Except.error () ∨ ∃ t, r = Except.ok t ∧ s t = Except.error ()) →
      (handleGenerateTTS chunks cid r s).2 = false ∧
      (∀ c ∈ (handleGenerateTTS chunks cid r s).1, c.id = cid →
        c.status = ChunkStatus.error) ∧
      (handleGenerateTTS chunks cid r s).1.filter (fun c => c.id != cid) =
        chunks.filter (fun c => c.id != cid)) :=
  ⟨rfl, handleGenerateTTS_failure⟩

theorem generateTTS_failure_containment_witness :
    (handleGenerateTTS [⟨1, [], ChunkStatus.pending, none, [], 0, 0⟩] 1
        (Except.error ()) (fun _ => Except.error ())).2 = false ∧
    (∀ c ∈ (handleGenerateTTS [⟨1, [], ChunkStatus.pending, none, [], 0, 0⟩] 1
        (Except.error ()) (fun _ => Except.error ())).1, c.id = 1 →
      c.status = ChunkStatus.error) ∧
    (handleGenerateTTS [⟨1, [], ChunkStatus.pending, none, [], 0, 0⟩] 1
        (Except.error ()) (fun _ => Except.error ())).1.filter
          (fun c => c.id != 1) =
      [(⟨1, [], ChunkStatus.pending, none, [], 0, 0⟩ : TextChunk)].filter
        (fun c => c.id != 1) :=
  generateTTS_failure_containment.2 [⟨1, [], ChunkStatus.pending, none, [], 0, 0⟩]
    1 ⟨1, [], ChunkStatus.pending, none, [], 0, 0⟩ (Except.error ())
    (fun _ => Except.error ()) rfl (by decide) (Or.inl rfl)

/-! ### Character tracking through the normalizer stages -/

theorem mem_removeCtrl {l : List Char} {x : Char} (hx : x ∈ removeCtrl l) :
    x ∈ l ∧ isCtrlJS x = false := by
  unfold removeCtrl at hx
  rw [List.mem_filter] at hx
  exact ⟨hx.1, by simpa using hx.2⟩

theorem mem_decorToSpace {l : List Char} {x : Char} (hx : x ∈ decorToSpace l) :
    (x ∈ l ∨ x = ' ') ∧ decorCode x.toNat = false := by
  unfold decorToSpace at hx
  rw [List.mem_map] at hx
  obtain ⟨c, hc, rfl⟩ := hx
  by_cases hd : decorCode c.toNat = true
  · rw [if_pos hd]
    exact ⟨Or.inr rfl, by decide⟩
  · rw [if_neg hd]
    exact ⟨Or.inl hc, by simpa using hd⟩

theorem mem_spaceAfter (p : Char) (e : Bool) :
    ∀ (l : List Char) (x : Char), x ∈ spaceAfter p e l → x ∈ l ∨ x = ' '
  | [], x, hx => by simp [spaceAfter] at hx
  | [c], x, hx => by
    unfold spaceAfter at hx
    by_cases h : (c == p && e) = true
    · rw [if_pos h] at hx
      simp only [List.mem_cons, List.not_mem_nil, or_false] at hx
      rcases hx with rfl | rfl
      · exact Or.inl (by simp)
      · exact Or.inr rfl
    · rw [if_neg h] at hx
      exact Or.inl hx
  | c :: d :: rest, x, hx => by
    unfold spaceAfter at hx
    by_cases h : (c == p && !isWsJS d) = true
    · rw [if_pos h] at hx
      simp only [List.mem_cons] at hx
      rcases hx with rfl | rfl | rfl | hx
      · exact Or.inl (by simp)
      · exact Or.inr rfl
      · exact Or.inl (by simp)
      · rcases mem_spaceAfter p e rest x hx with h2 | h2
        · exact Or.inl (by simp [h2])
        · exact Or.inr h2
    · rw [if_neg h] at hx
      simp only [List.mem_cons] at hx
      rcases hx with rfl | hx
      · exact Or.inl (by simp)
      · rcases mem_spaceAfter p e (d :: rest) x hx with h2 | h2
        · exact Or.inl (List.mem_cons_of_mem _ h2)
        · exact Or.inr h2

theorem spaceAfter_id (p : Char) (e : Bool) :
    ∀ (l : List Char), p ∉ l → spaceAfter p e l = l
  | [], _ => rfl
  | [c], h => by
    have hb : (c == p) = false :=
      beq_eq_false_iff_ne.mpr fun hc => h (by simp [hc])
    unfold spaceAfter
    rw [hb]
    simp
  | c :: d :: rest, h => by
    have hb : (c == p) = false :=
      beq_eq_false_iff_ne.mpr fun hc => h (by simp [hc])
    unfold spaceAfter
    rw [hb]
    simp only [Bool.false_and, Bool.false_eq_true, if_false]
    rw [spaceAfter_id p e (d :: rest) fun hm => h (List.mem_cons_of_mem _ hm)]

theorem collapseGo_mem (p : Char) (mn k : Nat) :
    ∀ (l : List Char) (run : Nat) (x : Char),
      x ∈ collapseGo p mn k run l → x = p ∨ x ∈ l := by
  intro l
  induction l with
  | nil =>
    intro run x hx
    simp only [collapseGo] at hx
    unfold runEmit at hx
    exact Or.inl (List.eq_of_mem_replicate hx)
  | cons c rest ih =>
    intro run x hx
    rw [collapseGo] at hx
    by_cases hc : (c == p) = true
    · rw [if_pos hc] at hx
      rcases ih (run + 1) x hx with h | h
      · exact Or.inl h
      · exact Or.inr (List.mem_cons_of_mem _ h)
    · rw [if_neg hc, List.mem_append] at hx
      rcases hx with hx | hx
      · unfold runEmit at hx
        exact Or.inl (List.eq_of_mem_replicate hx)
      · rcases List.mem_cons.mp hx with rfl | hx
        · exact Or.inr (by simp)
        · rcases ih 0 x hx with h | h
          · exact Or.inl h
          · exact Or.inr (List.mem_cons_of_mem _ h)

theorem collapseRun_id (p : Char) (mn k : Nat) (hmn : 0 < mn) :
    ∀ (l : List Char), p ∉ l → collapseRun p mn k l = l := by
  intro l
  unfold collapseRun
  induction l with
  | nil =>
    intro _
    simp only [collapseGo]
    unfold runEmit
    rw [if_neg (by omega)]
    rfl
  | cons c rest ih =>
    intro hl
    have hb : (c == p) = false :=
      beq_eq_false_iff_ne.mpr fun hc => hl (by simp [hc])
    rw [collapseGo, hb]
    simp only [Bool.false_eq_true, if_false]
    unfold runEmit
    rw [if_neg (by omega), List.replicate_zero, List.nil_append,
      ih fun hm => hl (List.mem_cons_of_mem _ hm)]

theorem map_id_of {f : Char → Char} :
    ∀ {l : List Char}, (∀ c ∈ l, f c = c) → l.map f = l := by
  intro l h
  induction l with
  | nil => rfl
  | cons c rest ih =>
    rw [List.map_cons, h c (by simp), ih fun x hx => h x (by simp [hx])]

theorem dqNorm_ws {c : Char} (h : isWsJS c = true) : dqNorm c = c := by
  unfold isWsJS wsCode at h
  rw [decide_eq_true_eq] at h
  have hq : ¬(c.toNat = 34 ∨ c.toNat = 65282 ∨ c.toNat = 8222) := by omega
  simp [dqNorm, dqCode, hq]

theorem sqNorm_ws {c : Char} (h : isWsJS c = true) : sqNorm c = c := by
  unfold isWsJS wsCode at h
  rw [decide_eq_true_eq] at h
  have hq : ¬(c.toNat = 39 ∨ c.toNat = 8216 ∨ c.toNat = 8217) := by omega
  simp [sqNorm, sqCode, hq]

/-- On white-space-only input every normalizer stage preserves
white-space-only content and the final trim empties it. -/
theorem cleanTextForTTS_all_ws {l : List Char} (h : ∀ c ∈ l, isWsJS c = true) :
    cleanTextForTTS l = [] := by
  unfold cleanTextForTTS
  have hz1ws : ∀ c ∈ removeCtrl l, isWsJS c = true :=
    fun c hc => h c (mem_removeCtrl hc).1
  have hz1ctrl : ∀ c ∈ removeCtrl l, isCtrlJS c = false :=
    fun c hc => (mem_removeCtrl hc).2
  have hz2ws : ∀ c ∈ decorToSpace (removeCtrl l), isWsJS c = true := by
    intro c hc
    rcases (mem_decorToSpace hc).1 with h2 | rfl
    · exact hz1ws c h2
    · decide
  have hz2ctrl : ∀ c ∈ decorToSpace (removeCtrl l), isCtrlJS c = false := by
    intro c hc
    rcases (mem_decorToSpace hc).1 with h2 | rfl
    · exact hz1ctrl c h2
    · decide
  have hnp : ∀ q : Char, isWsJS q = false → q ∉ decorToSpace (removeCtrl l) := by
    intro q hq hm
    rw [hz2ws q hm] at hq
    simp at hq
  have hnl : ('\n' : Char) ∉ decorToSpace (removeCtrl l) := by
    intro hm
    have h2 := hz2ctrl _ hm
    exact absurd h2 (by decide)
  rw [spaceAfter_id '.' true _ (hnp '.' (by decide)),
    spaceAfter_id '?' true _ (hnp '?' (by decide)),
    spaceAfter_id '!' true _ (hnp '!' (by decide)),
    spaceAfter_id ',' false _ (hnp ',' (by decide)),
    collapseRun_id '\n' 3 2 (by omega) _ hnl,
    collapseRun_id '!' 3 2 (by omega) _ (hnp '!' (by decide)),
    collapseRun_id '?' 3 2 (by omega) _ (hnp '?' (by decide)),
    collapseRun_id '.' 4 3 (by omega) _ (hnp '.' (by decide)),
    map_id_of (fun c hc => dqNorm_ws (hz2ws c hc)),
    map_id_of (fun c hc => sqNorm_ws (hz2ws c hc))]
  exact trimJS_eq_nil_of_ws hz2ws

/-! ### Claim C10 -/

theorem chunkLoop_mem_trim (m : Nat) (segs : List (List Char)) :
    ∀ cur c, c ∈ chunkLoop m cur segs → ∃ x, c = trimJS x ∧ trimJS x ≠ [] := by
  induction segs with
  | nil =>
    intro cur c hc
    simp only [chunkLoop] at hc
    by_cases h : trimJS cur = []
    · simp [h] at hc
    · simp only [h, if_false, List.mem_singleton] at hc
      exact ⟨cur, hc, h⟩
  | cons seg segs ih =>
    intro cur c hc
    rw [chunkLoop] at hc
    by_cases hseg : seg = []
    · rw [if_pos hseg] at hc
      exact ih cur c hc
    · rw [if_neg hseg] at hc
      by_cases hover : m < cur.length + seg.length
      · rw [if_pos hover, List.mem_append] at hc
        rcases hc with hc | hc
        · by_cases htr : trimJS cur = []
          · simp [htr] at hc
          · simp only [htr, if_false, List.mem_singleton] at hc
            exact ⟨cur, hc, htr⟩
        · exact ih seg c hc
      · rw [if_neg hover] at hc
        exact ih (cur ++ seg) c hc

/-- C10 (confirmed): every returned section is non-empty, contains a
non-white-space character, and equals its own trim (no leading or trailing
white space); and an input consisting solely of white space yields the empty
section sequence. -/
theorem splitTextIntoChunks_sections_nonempty_trimmed :
    (∀ (text : List Char) (maxChars : Nat), ∀ c ∈ splitTextIntoChunks text maxChars,
        c ≠ [] ∧ (∃ ch ∈ c, isWsJS ch = false) ∧ trimJS c = c) ∧
    (∀ (text : List Char) (maxChars : Nat),
        (∀ ch ∈ text, isWsJS ch = true) → splitTextIntoChunks text maxChars = []) := by
  constructor
  · intro text m c hc
    obtain ⟨x, rfl, hx⟩ := chunkLoop_mem_trim m _ [] c hc
    refine ⟨hx, ?_, trimJS_idem x⟩
    by_contra hall
    push_neg at hall
    have hws : ∀ ch ∈ trimJS x, isWsJS ch = true := by
      intro ch hch
      have h2 := hall ch hch
      revert h2
      cases isWsJS ch <;> simp
    have h0 := trimJS_eq_nil_of_ws hws
    rw [trimJS_idem] at h0
    exact hx h0
  · intro text m hws
    unfold splitTextIntoChunks
    rw [cleanTextForTTS_all_ws hws]
    rfl

/-! ### Claim C3 -/

/-- C3 (counterexample): the normalizer is not idempotent.
`cleanTextForTTS "..."` is `". .."`, but applying `cleanTextForTTS` again
gives `". . ."`: the period-spacing rule matches the pair `".."` that the
first pass left behind (the first pass consumed it inside a match, so it was
not re-examined then). -/
theorem cleanTextForTTS_not_idempotent :
    cleanTextForTTS (cleanTextForTTS ("...".toList)) ≠
      cleanTextForTTS ("...".toList) := by decide

theorem removeCtrl_id {l : List Char} (h : ∀ c ∈ l, isCtrlJS c = false) :
    removeCtrl l = l := by
  unfold removeCtrl
  exact List.filter_eq_self.mpr fun a ha => by simp [h a ha]

theorem decorToSpace_id {l : List Char} (h : ∀ c ∈ l, decorCode c.toNat = false) :
    decorToSpace l = l := by
  unfold decorToSpace
  exact map_id_of fun c hc => by simp [h c hc]

/-- C3 (amended): the normalizer is idempotent only on inputs containing
none of `'.'`, `'?'`, `'!'`, `','`; on such inputs a second application
changes nothing, while in general the spacing rules for those characters can
fire again on their own output (see the counterexample). -/
theorem cleanTextForTTS_idem_of_no_punct (l : List Char)
    (h : ∀ c ∈ l, c ≠ '.' ∧ c ≠ '?' ∧ c ≠ '!' ∧ c ≠ ',') :
    cleanTextForTTS (cleanTextForTTS l) = cleanTextForTTS l := by
  have hz2ctrl : ∀ c ∈ decorToSpace (removeCtrl l), isCtrlJS c = false := by
    intro c hc
    rcases (mem_decorToSpace hc).1 with h2 | rfl
    · exact (mem_removeCtrl h2).2
    · decide
  have hnp : ∀ q : Char, q ≠ ' ' → (∀ c ∈ l, c ≠ q) →
      q ∉ decorToSpace (removeCtrl l) := by
    intro q hq hl hm
    rcases (mem_decorToSpace hm).1 with h2 | h2
    · exact hl q (mem_removeCtrl h2).1 rfl
    · exact hq h2
  have hnl : ('\n' : Char) ∉ decorToSpace (removeCtrl l) := by
    intro hm
    exact absurd (hz2ctrl _ hm) (by decide)
  have hdot := hnp '.' (by decide) fun c hc => (h c hc).1
  have hque := hnp '?' (by decide) fun c hc => (h c hc).2.1
  have hban := hnp '!' (by decide) fun c hc => (h c hc).2.2.1
  have hcom := hnp ',' (by decide) fun c hc => (h c hc).2.2.2
  have hy : cleanTextForTTS l =
      trimJS (List.map sqNorm (List.map dqNorm (decorToSpace (removeCtrl l)))) := by
    unfold cleanTextForTTS
    rw [spaceAfter_id '.' true _ hdot, spaceAfter_id '?' true _ hque,
      spaceAfter_id '!' true _ hban, spaceAfter_id ',' false _ hcom,
      collapseRun_id '\n' 3 2 (by omega) _ hnl,
      collapseRun_id '!' 3 2 (by omega) _ hban,
      collapseRun_id '?' 3 2 (by omega) _ hque,
      collapseRun_id '.' 4 3 (by omega) _ hdot]
  rw [hy]
  have key : ∀ c ∈ trimJS (List.map sqNorm (List.map dqNorm
      (decorToSpace (removeCtrl l)))),
      isCtrlJS c = false ∧ decorCode c.toNat = false ∧
      c ≠ '.' ∧ c ≠ '?' ∧ c ≠ '!' ∧ c ≠ ',' ∧ c ≠ '\n' ∧
      dqNorm c = c ∧ sqNorm c = c := by
    intro c hc
    have hc2 := trimJS_subset c hc
    rw [List.mem_map] at hc2
    obtain ⟨b, hb, rfl⟩ := hc2
    rw [List.mem_map] at hb
    obtain ⟨c0, hc0, rfl⟩ := hb
    have hc0ctrl : isCtrlJS c0 = false := hz2ctrl c0 hc0
    have hc0dec : decorCode c0.toNat = false := (mem_decorToSpace hc0).2
    have hc0p : c0 ≠ '.' ∧ c0 ≠ '?' ∧ c0 ≠ '!' ∧ c0 ≠ ',' := by
      rcases (mem_decorToSpace hc0).1 with h2 | rfl
      · exact h c0 (mem_removeCtrl h2).1
      · exact ⟨by decide, by decide, by decide, by decide⟩
    have hc0nl : c0 ≠ '\n' := by
      intro hEq
      rw [hEq] at hc0ctrl
      exact absurd hc0ctrl (by decide)
    by_cases hdq : dqCode c0.toNat = true
    · have h1 : dqNorm c0 = '"' := by simp [dqNorm, hdq]
      rw [h1]
      decide
    · have h1 : dqNorm c0 = c0 := by simp [dqNorm, hdq]
      rw [h1]
      by_cases hsq : sqCode c0.toNat = true
      · have h2 : sqNorm c0 = Char.ofNat 39 := by simp [sqNorm, hsq]
        rw [h2]
        decide
      · have h2 : sqNorm c0 = c0 := by simp [sqNorm, hsq]
        rw [h2]
        exact ⟨hc0ctrl, hc0dec, hc0p.1, hc0p.2.1, hc0p.2.2.1, hc0p.2.2.2,
          hc0nl, h1, h2⟩
  unfold cleanTextForTTS
  rw [removeCtrl_id fun c hc => (key c hc).1,
    decorToSpace_id fun c hc => (key c hc).2.1,
    spaceAfter_id '.' true _ (fun hm => (key _ hm).2.2.1 rfl),
    spaceAfter_id '?' true _ (fun hm => (key _ hm).2.2.2.1 rfl),
    spaceAfter_id '!' true _ (fun hm => (key _ hm).2.2.2.2.1 rfl),
    spaceAfter_id ',' false _ (fun hm => (key _ hm).2.2.2.2.2.1 rfl),
    collapseRun_id '\n' 3 2 (by omega) _ (fun hm => (key _ hm).2.2.2.2.2.2.1 rfl),
    collapseRun_id '!' 3 2 (by omega) _ (fun hm => (key _ hm).2.2.2.2.1 rfl),
    collapseRun_id '?' 3 2 (by omega) _ (fun hm => (key _ hm).2.2.2.1 rfl),
    collapseRun_id '.' 4 3 (by omega) _ (fun hm => (key _ hm).2.2.1 rfl),
    map_id_of fun c hc => (key c hc).2.2.2.2.2.2.2.1,
    map_id_of fun c hc => (key c hc).2.2.2.2.2.2.2.2]
  exact trimJS_idem _

theorem cleanTextForTTS_idem_witness :
    (∀ c ∈ "ab cd".toList, c ≠ '.' ∧ c ≠ '?' ∧ c ≠ '!' ∧ c ≠ ',') ∧
    cleanTextForTTS (cleanTextForTTS ("ab cd".toList)) =
      cleanTextForTTS ("ab cd".toList) :=
  ⟨by decide, cleanTextForTTS_idem_of_no_punct ("ab cd".toList) (by decide)⟩

theorem splitTextIntoChunks_sections_witness :
    ("a.b".toList ≠ ([] : List Char) ∧
      (∃ ch ∈ "a.b".toList, isWsJS ch = false) ∧
      trimJS ("a.b".toList) = "a.b".toList) ∧
    splitTextIntoChunks ("  ".toList) 7 = [] :=
  ⟨splitTextIntoChunks_sections_nonempty_trimmed.1 ("a. b".toList) 3000
      ("a.b".toList) (by decide),
    splitTextIntoChunks_sections_nonempty_trimmed.2 ("  ".toList) 7 (by decide)⟩

end TTS
